import Mathlib

/-!
A verification development for the archetype-based entity-component storage
engine (ezgame). Rust sources are shallowly embedded: machine integers become
`Nat` (all quantities involved are small and non-wrapping on the paths
modelled), heap columns become lists whose entries are `Option Nat`
(`none` = an uninitialized slot, `some v` = a stored component payload),
and the destructor calls performed by the code are recorded as an explicit
event trace.
-/

namespace Ezgame

/-- Size of `EntId` in bytes: `std::mem::size_of::<EntId>()` with `EntId = u64` (entity.rs). -/
def ENTITY_SIZE : Nat := 8

/-- Constant `Archetype::CHUNK_SIZE` (archetype.rs) = `ArchetypeChunk::TARGET_SIZE` (arch/chunk.rs). -/
def TARGET_CHUNK_BYTES : Nat := 16000

/-- Value of `usize::MAX` on a 64-bit target, used for the `EntityLocation::NULL` sentinel. -/
def USIZE_MAX : Nat := 2 ^ 64 - 1

/-- Metadata for one component type: `TypeMeta` (ty.rs) / `CmpMeta` (cmp.rs).
The drop function itself is not carried; destructor invocations are recorded
as events by the operations that perform them. -/
structure CmpMeta where
  id : Nat
  size : Nat
  align : Nat
deriving DecidableEq, Repr

/-- The canonical component ordering from `impl Ord for TypeMeta` (ty.rs:83-94):
alignment compared and reversed (largest first), ties broken by type id
ascending. -/
def cmpCanonicalLe (a b : CmpMeta) : Prop :=
  b.align < a.align ∨ (a.align = b.align ∧ a.id ≤ b.id)

instance : DecidableRel cmpCanonicalLe := by
  intro a b; unfold cmpCanonicalLe; infer_instance

/-- Strict canonical order, for stating sortedness hypotheses. -/
def cmpCanonicalLt (a b : CmpMeta) : Prop :=
  b.align < a.align ∨ (a.align = b.align ∧ a.id < b.id)

instance : DecidableRel cmpCanonicalLt := by
  intro a b; unfold cmpCanonicalLt; infer_instance

/-- Sorting step `ty.sort_unstable()` in `ComponentSet::ty` (component.rs:41) / `metas.sort()`
in `Scene::add` (scene.rs:170) — sorting the tuple's type list by the canonical
`Ord`.  Rust's sorts are modelled by insertion sort, which agrees with any
(stable) sort under a total order on duplicate-free keys. -/
def sortCanonical (ts : List CmpMeta) : List CmpMeta :=
  List.insertionSort cmpCanonicalLe ts

/-- Sorting step `types.sort()` in `Scene::add` (scene.rs:171) — this sorts the
`Vec<TypeId>` by `TypeId`'s own `Ord`, i.e. plain id order. -/
def sortIds (ids : List Nat) : List Nat :=
  List.insertionSort (fun a b => a ≤ b) ids

/-- Modelled from the spec: the spawn-path registry key.  The revision of
`ComponentSet::ty` returning `Vec<TypeId>` (consumed by
`ArchetypeMap::get_or_insert`, archetype.rs:564-587) is not under src/; per
§4.1 of the spec the key is "the sequence of `type_id`s in the same sorted
order" as the canonical `(alignment DESC, type_id ASC)` sort, which is also
what the `ComponentSet` doc in component.rs states. -/
def spawnKey (ts : List CmpMeta) : List Nat :=
  (sortCanonical ts).map CmpMeta.id

/-- The registry key computed on the add-migration path (scene.rs:147-171):
the ids of the old archetype's types plus the truly-new ids, sorted by
`types.sort()`, i.e. by id alone. -/
def addPathKey (oldTypes newTypes : List CmpMeta) : List Nat :=
  sortIds (oldTypes.map CmpMeta.id ++ newTypes.map CmpMeta.id)

/-- Per-entity entry size: `size` in `ArchetypeMeta::new` (arch/meta.rs:46-48, archetype.rs:121-123):
bytes of one entity's id plus all its components, excluding padding. -/
def entrySize (types : List CmpMeta) : Nat :=
  ENTITY_SIZE + types.foldl (fun acc n => acc + n.size) 0

/-- The offset-assignment loop of `ArchetypeMeta::new` (arch/meta.rs:54-75,
archetype.rs:129-151): starting from the end of the id column, pad the running
allocation size up to each type's alignment, record the offset, then advance
by `size * max`.  Returns the final allocation size and the `(meta, offset)`
pairs in iteration order (the source stores them in a `HashMap` keyed by the
type id; the list keeps the same associations). -/
def layoutOffsets (max : Nat) : Nat → List CmpMeta → Nat × List (CmpMeta × Nat)
  | alloc, [] => (alloc, [])
  | alloc, t :: ts =>
      let off := alloc + (t.align - alloc % t.align) % t.align
      let rest := layoutOffsets max (off + t.size * max) ts
      (rest.1, (t, off) :: rest.2)

/-- Structure `ArchetypeMeta` (arch/meta.rs:10-25, archetype.rs:53-68). -/
structure ArchetypeMeta where
  id : Nat
  cmp : List (CmpMeta × Nat)
  max : Nat
  allocBytes : Nat
deriving DecidableEq, Repr

/-- Constructor `ArchetypeMeta::new` (arch/meta.rs:30-82) = the meta block of
`Archetype::new` (archetype.rs:108-168).  The construction is total: the
source performs no emptiness or oversize check on `types`. -/
def ArchetypeMeta.new (id : Nat) (types : List CmpMeta) : ArchetypeMeta :=
  let size := entrySize types
  let max := TARGET_CHUNK_BYTES / size
  let fold := layoutOffsets max (ENTITY_SIZE * max) types
  { id := id, cmp := fold.2, max := max, allocBytes := fold.1 }

/-- Structure `EntityLocation` (entity.rs:32-38). -/
structure EntityLocation where
  archetype : Nat
  chunk : Nat
  index : Nat
deriving DecidableEq, Repr

/-- Sentinel `EntityLocation::NULL` (entity.rs:228): archetype set to `usize::MAX`. -/
def EntityLocation.NULL : EntityLocation :=
  { archetype := USIZE_MAX, chunk := 0, index := 0 }

/-- A destructor invocation performed by the code: `drop_fn` was run on the
bytes currently stored at some column slot.  `prior` is the logical content of
those bytes — `none` when the slot was uninitialized. -/
inductive Event where
  | dropPrior (prior : Option Nat)
deriving DecidableEq, Repr

/-- Structure `ArchetypeChunk` (archetype.rs:28-48, arch/chunk.rs:10-30): the id column
and one column per component type.  Only the occupied prefix (`len` entries)
is represented; `cols` entries are `none` when the slot's bytes were never
written (the uninitialized-slot contract of `Archetype::insert`). -/
structure Chunk where
  ids : List Nat
  cols : List (List (Option Nat))
deriving DecidableEq, Repr

/-- Occupancy counter `chunk.len`. -/
def Chunk.len (ch : Chunk) : Nat := ch.ids.length

instance : Inhabited Chunk := ⟨⟨[], []⟩⟩

/-- The effect of `Archetype::insert` on the chosen chunk (archetype.rs:210-222,
arch/mod.rs:53-65): `len` is incremented, the entity id is written at the new
slot, and every component column gains one uninitialized slot. -/
def Chunk.pushSlot (ch : Chunk) (e : Nat) : Chunk :=
  { ids := ch.ids ++ [e], cols := ch.cols.map (fun col => col ++ [none]) }

/-- The Rust assignment `column[slot] = cmp` performed by `Archetype::set`
(archetype.rs:314-319) and by `ComponentSet::insert`
(`*arch.get_mut(loc).unwrap() = self.$num`, component.rs:47-52).  Assigning
through a mutable place in Rust first runs the destructor of the place's
previous contents, then moves the new value in; the destructor invocation is
recorded as an event. -/
def Chunk.setCmp (ch : Chunk) (colIdx slot v : Nat) : Chunk × List Event :=
  let col := ch.cols.getD colIdx []
  ({ ch with cols := ch.cols.set colIdx (col.set slot (some v)) },
   [Event.dropPrior (col.getD slot none)])

/-- A raw byte copy into a column slot (`std::ptr::copy_nonoverlapping` as used
by the migration path, scene.rs:192-197): overwrites without any destructor
call. -/
def Chunk.writeCol (ch : Chunk) (colIdx slot : Nat) (v : Option Nat) : Chunk :=
  { ch with cols := ch.cols.set colIdx ((ch.cols.getD colIdx []).set slot v) }

/-- Effect of `Archetype::remove` on the chunk (archetype.rs:238-299):
if the removed slot is not the last, the id and every column entry of the last
slot are copied into it (with `drop_fn` run first on the removed slot's
contents when `drop` is true) and the previous last id is returned; otherwise
nothing is dropped or copied.  In both cases `len` is decremented.
Note the source runs the drop loop only inside the non-last branch. -/
def Chunk.removeAt (ch : Chunk) (slot : Nat) (drop : Bool) : Chunk × Option Nat × List Event :=
  if slot ≠ ch.len - 1 then
    let last := ch.ids.getD (ch.len - 1) 0
    let events := if drop then ch.cols.map (fun col => Event.dropPrior (col.getD slot none)) else []
    ({ ids := (ch.ids.set slot last).dropLast,
       cols := ch.cols.map (fun col => (col.set slot (col.getD (ch.len - 1) none)).dropLast) },
     some last, events)
  else
    ({ ids := ch.ids.dropLast, cols := ch.cols.map List.dropLast }, none, [])

/-- Structure `Archetype` (archetype.rs:11-24, arch/mod.rs:15-27).  The free set is a
`HashSet<usize>` in the source; it is modelled as a duplicate-free list whose
head stands for the arbitrary element produced by `free.iter().next()`. -/
structure Archetype where
  meta : ArchetypeMeta
  chunks : List Chunk
  free : List Nat
deriving DecidableEq, Repr

instance : Inhabited Archetype := ⟨⟨⟨0, [], 0, 0⟩, [], []⟩⟩

/-- Constructor `Archetype::new` (archetype.rs:108-168, arch/mod.rs:32-40): no chunks,
empty free set. -/
def Archetype.new (id : Nat) (types : List CmpMeta) : Archetype :=
  { meta := ArchetypeMeta.new id types, chunks := [], free := [] }

/-- Function `Archetype::new_chunk` (archetype.rs:172-197) = `ArchetypeChunk::append_to`
(arch/chunk.rs:39-63): append an empty chunk and mark its index free.
Returns the updated archetype and the new chunk's index. -/
def Archetype.newChunk (a : Archetype) : Archetype × Nat :=
  let n := a.chunks.length
  ({ a with chunks := a.chunks ++ [{ ids := [], cols := a.meta.cmp.map (fun _ => []) }],
            free := a.free.insert n }, n)

/-- The body of `Archetype::insert` after a chunk `c` has been chosen
(archetype.rs:210-225, arch/mod.rs:53-68): increment the chunk's length
(writing the id at the old length), and if the chunk is now at capacity remove
it from the free set. -/
def Archetype.insertInto (a : Archetype) (e c : Nat) : Archetype × EntityLocation :=
  let ch := a.chunks.getD c default
  let index := ch.len
  let ch' := ch.pushSlot e
  let free' := if ch'.len = a.meta.max then a.free.erase c else a.free
  ({ a with chunks := a.chunks.set c ch', free := free' },
   { archetype := a.meta.id, chunk := c, index := index })

/-- Function `Archetype::insert` (archetype.rs:201-226, arch/mod.rs:44-69) with the
free-set iteration choice fixed to the list head.  If the free set is empty a
new chunk is allocated first. -/
def Archetype.insertE (a : Archetype) (e : Nat) : Archetype × EntityLocation :=
  match a.free with
  | c :: _ => a.insertInto e c
  | [] =>
      let p := a.newChunk
      p.1.insertInto e p.2

/-- Function `Archetype::remove` (archetype.rs:233-306): delegate to the chunk, then
decrement is already folded into `removeAt`; finally the chunk index is
(re-)inserted into the free set. -/
def Archetype.removeLoc (a : Archetype) (loc : EntityLocation) (drop : Bool) :
    Archetype × Option Nat × List Event :=
  let r := (a.chunks.getD loc.chunk default).removeAt loc.index drop
  ({ a with chunks := a.chunks.set loc.chunk r.1, free := a.free.insert loc.chunk },
   r.2.1, r.2.2)

/-- The column index of a type id within an archetype: models the
`HashMap<TypeId, CmpMeta>` lookup (`ArchetypeMeta::get_dyn`/`try_get_dyn`,
archetype.rs:653-676). -/
def Archetype.colIdxOf (a : Archetype) (tid : Nat) : Option Nat :=
  a.meta.cmp.findIdx? (fun p => p.1.id = tid)

/-- The component types stored by an archetype (`ArchetypeMeta::types` /
`component_metas`), in the layout's iteration order. -/
def Archetype.types (a : Archetype) : List CmpMeta :=
  a.meta.cmp.map Prod.fst

/-- Modelled from the spec: `Archetype::get_dyn` / `get_mut_dyn` are referenced
by `Scene::add` (scene.rs:157,178,194) but their definition is not under src/.
Per §4.4 of the spec, `get` "checks the requested type is present in the
layout; if not, returns absent. Otherwise returns a reference into the column
at `loc.slot`."  The outer option is presence of the type, the inner option
the (possibly uninitialized) slot content. -/
def Archetype.getDyn (a : Archetype) (loc : EntityLocation) (tid : Nat) :
    Option (Option Nat) :=
  match a.colIdxOf tid with
  | none => none
  | some j => some (((a.chunks.getD loc.chunk default).cols.getD j []).getD loc.index none)

/-- Raw-copy a value into the column of type `tid` at `loc` (the migration
writes of `Scene::add`, scene.rs:192-197). -/
def Archetype.writeDyn (a : Archetype) (loc : EntityLocation) (tid : Nat) (v : Option Nat) :
    Archetype :=
  match a.colIdxOf tid with
  | none => a
  | some j =>
      { a with chunks :=
          a.chunks.set loc.chunk ((a.chunks.getD loc.chunk default).writeCol j loc.index v) }

/-- The drop-assignment write of one tuple component at `loc` (the state effect
of `ComponentSet::insert` / `Archetype::set`; its destructor event is tracked
separately by `Chunk.setCmp`). -/
def Archetype.setDyn (a : Archetype) (loc : EntityLocation) (tid v : Nat) : Archetype :=
  match a.colIdxOf tid with
  | none => a
  | some j =>
      { a with chunks :=
          a.chunks.set loc.chunk ((a.chunks.getD loc.chunk default).setCmp j loc.index v).1 }

/-- One `Archetype::insert` call, with the free-set pick left nondeterministic
(the source iterates a `HashSet`): either some member of the free set is
chosen, or the free set is empty and a fresh chunk is allocated. -/
inductive InsStep : Archetype → Archetype → Prop
  | intoFree (a : Archetype) (e c : Nat) (h : c ∈ a.free) :
      InsStep a (a.insertInto e c).1
  | intoNew (a : Archetype) (e : Nat) (h : a.free = []) :
      InsStep a ((a.newChunk).1.insertInto e (a.newChunk).2).1

/-- One mutating archetype operation: an insert, or a `remove` at a location
that addresses an occupied slot of an existing chunk. -/
inductive ArchStep : Archetype → Archetype → Prop
  | ins {a b : Archetype} (h : InsStep a b) : ArchStep a b
  | rem (a : Archetype) (loc : EntityLocation) (drop : Bool)
      (hc : loc.chunk < a.chunks.length)
      (hs : loc.index < (a.chunks.getD loc.chunk default).len) :
      ArchStep a (a.removeLoc loc drop).1

/-- Archetype states reachable from `init` by inserts and valid removes. -/
inductive ArchReach (init : Archetype) : Archetype → Prop
  | refl : ArchReach init init
  | step {b c : Archetype} (hr : ArchReach init b) (hs : ArchStep b c) : ArchReach init c

/-- Exactly `k` consecutive inserts from `init` (the spawn-only workload). -/
inductive InsChain (init : Archetype) : Nat → Archetype → Prop
  | zero : InsChain init 0 init
  | succ {k : Nat} {b c : Archetype} (hr : InsChain init k b) (hs : InsStep b c) :
      InsChain init (k + 1) c

/-- The deterministic insert iterated `k` times (entity ids are irrelevant to
chunk accounting; 0 is used throughout). -/
def iterIns (init : Archetype) : Nat → Archetype
  | 0 => init
  | k + 1 => ((iterIns init k).insertE 0).1

/-- Component `Pos` from the test suite: 12 bytes, align 4 (tests/spawn.rs). -/
def PosMeta : CmpMeta := { id := 0, size := 12, align := 4 }

/-- Component `Vel` from the test suite: 12 bytes, align 4 (tests/spawn.rs). -/
def VelMeta : CmpMeta := { id := 1, size := 12, align := 4 }

/-- The `(Pos, Vel)` archetype, freshly created. -/
def posVelArch : Archetype := Archetype.new 0 [PosMeta, VelMeta]

/-- Structure `EntityMapChunk` (entity.rs:44-49): a bucket of 16 locations plus the
count of non-NULL entries.  `map` is kept at length 16. -/
structure EMBucket where
  map : List EntityLocation
  len : Nat
deriving DecidableEq, Repr

/-- Constructor `EntityMapChunk::new` (entity.rs:215-222). -/
def EMBucket.new : EMBucket :=
  { map := List.replicate 16 EntityLocation.NULL, len := 0 }

/-- Structure `EntityMap` (entity.rs:25-29): the `HashMap<EntId, EntityMapChunk>` is
modelled as a function to `Option`. -/
structure EntityMap where
  chunks : Nat → Option EMBucket

/-- The empty map (`EntityMap::default`). -/
def EntityMap.empty : EntityMap := ⟨fun _ => none⟩

/-- Index of an entity within its bucket (entity.rs: `e.id() % SIZE`). -/
def eInd (e : Nat) : Nat := e % 16

/-- Bucket key of an entity (entity.rs: `e.id() - e_ind`). -/
def cInd (e : Nat) : Nat := e - e % 16

/-- Point-update of the bucket table (models `HashMap` insert/remove at one key). -/
def EntityMap.update (m : EntityMap) (k : Nat) (b : Option EMBucket) : EntityMap :=
  ⟨fun k' => if k' = k then b else m.chunks k'⟩

/-- Function `EntityMap::insert` (entity.rs:111-148). -/
def EntityMap.insert (m : EntityMap) (e : Nat) (loc : EntityLocation) : EntityMap :=
  match m.chunks (cInd e) with
  | some ch =>
      let len' := if ch.map.getD (eInd e) EntityLocation.NULL = EntityLocation.NULL
                  then ch.len + 1 else ch.len
      m.update (cInd e) (some { map := ch.map.set (eInd e) loc, len := len' })
  | none =>
      m.update (cInd e)
        (some { map := EMBucket.new.map.set (eInd e) loc, len := 1 })

/-- Function `EntityMap::remove` (entity.rs:152-179). -/
def EntityMap.remove (m : EntityMap) (e : Nat) : EntityMap :=
  match m.chunks (cInd e) with
  | some ch =>
      let len' := if ch.map.getD (eInd e) EntityLocation.NULL ≠ EntityLocation.NULL
                  then ch.len - 1 else ch.len
      if len' = 0 then m.update (cInd e) none
      else m.update (cInd e) (some { map := ch.map.set (eInd e) EntityLocation.NULL, len := len' })
  | none => m

/-- Function `EntityMap::get` (entity.rs:183-200). -/
def EntityMap.get (m : EntityMap) (e : Nat) : EntityLocation :=
  match m.chunks (cInd e) with
  | some ch => ch.map.getD (eInd e) EntityLocation.NULL
  | none => EntityLocation.NULL

/-- One mutating `EntityMap` operation.  Insert carries the precondition that
the location is not NULL (`debug_assert_ne!` at entity.rs:113). -/
inductive EMStep : EntityMap → EntityMap → Prop
  | ins (m : EntityMap) (e : Nat) (loc : EntityLocation) (h : loc ≠ EntityLocation.NULL) :
      EMStep m (m.insert e loc)
  | rem (m : EntityMap) (e : Nat) : EMStep m (m.remove e)

/-- Map states reachable from the empty map. -/
inductive EMReach : EntityMap → Prop
  | refl : EMReach EntityMap.empty
  | step {b c : EntityMap} (hr : EMReach b) (hs : EMStep b c) : EMReach c

/-- Count of non-NULL locations in a bucket's array. -/
def countNonNull (l : List EntityLocation) : Nat :=
  (l.filter (fun x => x ≠ EntityLocation.NULL)).length

/-- Structure `Scene` (scene.rs:8-13).  The process-wide `ENT_CURSOR` atomic
(entity.rs:21) is carried as `cursor`; `ArchetypeMap` (archetype.rs:73-81) is
inlined as the archetype vector plus the key-to-index registry, the latter
modelled as an association list. -/
structure Scene where
  entities : EntityMap
  archetypes : List Archetype
  regMap : List (List Nat × Nat)
  cursor : Nat

/-- Constructor `Scene::default`. -/
def Scene.empty : Scene :=
  { entities := EntityMap.empty, archetypes := [], regMap := [], cursor := 0 }

/-- Association-list lookup, modelling the registry `HashMap` lookup. -/
def regLookup (key : List Nat) : List (List Nat × Nat) → Option Nat
  | [] => none
  | (k, v) :: rest => if k = key then some v else regLookup key rest

/-- Function `ArchetypeMap::get_or_insert` / `get_or_insert_dyn` (archetype.rs:540-587):
look the key up; on a miss, push a new archetype built from the sorted metas
and register its index. -/
def getOrInsertArch (archetypes : List Archetype) (regMap : List (List Nat × Nat))
    (key : List Nat) (metas : List CmpMeta) :
    List Archetype × List (List Nat × Nat) × Nat :=
  match regLookup key regMap with
  | some i => (archetypes, regMap, i)
  | none =>
      let id := archetypes.length
      (archetypes ++ [Archetype.new id metas], regMap ++ [(key, id)], id)

/-- Update archetype `i` in place (the source mutates `self.arch[i]`). -/
def modifyArch (l : List Archetype) (i : Nat) (f : Archetype → Archetype) : List Archetype :=
  l.set i (f (l.getD i default))

/-- Function `Scene::spawn` (scene.rs:19-38): allocate an id, resolve the archetype
from the tuple's canonical key, insert, write each tuple component
(`cmp.insert`, the drop-assignment of component.rs:47-52), and record the
location.  The tuple is given as its (arbitrary-order) type metas paired with
payload values. -/
def Scene.spawn (s : Scene) (tys : List CmpMeta) (vals : List Nat) : Scene × Nat :=
  let ent := s.cursor
  let r := getOrInsertArch s.archetypes s.regMap (spawnKey tys) (sortCanonical tys)
  let arch := r.1.getD r.2.2 default
  let p := arch.insertE ent
  let arch2 := (tys.zip vals).foldl (fun a tv => a.setDyn p.2 tv.1.id tv.2) p.1
  ({ s with archetypes := r.1.set r.2.2 arch2,
            regMap := r.2.1,
            entities := s.entities.insert ent p.2,
            cursor := s.cursor + 1 }, ent)

/-- Function `Scene::despawn` (scene.rs:42-68). -/
def Scene.despawn (s : Scene) (ent : Nat) : Scene × Bool :=
  let loc := s.entities.get ent
  if loc = EntityLocation.NULL then (s, false)
  else
    let r := (s.archetypes.getD loc.archetype default).removeLoc loc true
    let archetypes := s.archetypes.set loc.archetype r.1
    let entities :=
      match r.2.1 with
      | some moved => s.entities.insert moved loc
      | none => s.entities
    ({ s with archetypes := archetypes, entities := entities.remove ent }, true)

/-- Function `Scene::add` (scene.rs:122-214).  Control flow follows the source:
1. bail out on a NULL location;
2. for each tuple type already present, `drop_fn` runs on the old value in
   place (state-irrelevant here) — only the others are pushed onto the
   truly-new lists;
3. metas are re-sorted canonically, the key ids by `types.sort()` (id order);
4. the target archetype is resolved or created and the entity inserted;
5. every old component is byte-copied to the new location;
6. the tuple's components are written;
7. the old slot is removed with `drop = false`, relocating the swapped
   entity's directory entry, and the entity's new location recorded.
There is no early return when every tuple type is already present. -/
def Scene.add (s : Scene) (ent : Nat) (tys : List CmpMeta) (vals : List Nat) : Scene × Bool :=
  let oldLoc := s.entities.get ent
  if oldLoc = EntityLocation.NULL then (s, false)
  else
    let oldArch := s.archetypes.getD oldLoc.archetype default
    let newMetas := tys.filter (fun t => (oldArch.colIdxOf t.id).isNone)
    let metas := sortCanonical (oldArch.types ++ newMetas)
    let key := addPathKey oldArch.types newMetas
    let oldCmp := oldArch.types.map (fun t => (t, (oldArch.getDyn oldLoc t.id).getD none))
    let r := getOrInsertArch s.archetypes s.regMap key metas
    let p := (r.1.getD r.2.2 default).insertE ent
    let archetypes1 := r.1.set r.2.2 p.1
    let archetypes2 :=
      modifyArch archetypes1 r.2.2 (fun a =>
        oldCmp.foldl (fun a tv => a.writeDyn p.2 tv.1.id tv.2) a)
    let archetypes3 :=
      modifyArch archetypes2 r.2.2 (fun a =>
        (tys.zip vals).foldl (fun a tv => a.setDyn p.2 tv.1.id tv.2) a)
    let rem := (archetypes3.getD oldLoc.archetype default).removeLoc oldLoc false
    let archetypes4 := archetypes3.set oldLoc.archetype rem.1
    let entities1 :=
      match rem.2.1 with
      | some moved => s.entities.insert moved oldLoc
      | none => s.entities
    ({ s with archetypes := archetypes4,
              regMap := r.2.1,
              entities := entities1.insert ent p.2 }, true)

/-- Free-set correctness for an archetype: the free list is duplicate-free
(it models a `HashSet`), addresses existing chunks, every chunk respects the
capacity bound, and a chunk is free exactly when it is below capacity. -/
def FreeInv (a : Archetype) : Prop :=
  a.free.Nodup ∧
  (∀ c ∈ a.free, c < a.chunks.length) ∧
  ∀ i, i < a.chunks.length →
    (a.chunks.getD i default).len ≤ a.meta.max ∧
    (i ∈ a.free ↔ (a.chunks.getD i default).len < a.meta.max)

/-- Total number of entities stored across an archetype's chunks. -/
def sumLens (a : Archetype) : Nat := (a.chunks.map Chunk.len).sum

/-- Invariant of an insert-only history of length `k`: free-set correctness,
at most one non-full chunk, every chunk non-empty, and `k` entities stored. -/
def InsOnlyInv (k : Nat) (a : Archetype) : Prop :=
  FreeInv a ∧ a.free.length ≤ 1 ∧
  (∀ i, i < a.chunks.length → 1 ≤ (a.chunks.getD i default).len) ∧
  sumLens a = k

/-- Bucket-occupancy invariant of the entity directory: every present bucket
has a full-width array, its counter equals the number of non-NULL slots, and
the counter is at least one. -/
def EMInv (m : EntityMap) : Prop :=
  ∀ k b, m.chunks k = some b →
    b.map.length = 16 ∧ b.len = countNonNull b.map ∧ 1 ≤ b.len

/-- A single-component spawn used as a concrete scenario: one entity holding
`Pos` with payload 77. -/
def posScene : Scene × Nat := Scene.empty.spawn [PosMeta] [77]

/-- The scenario scene after `add`-ing a `Pos` (already present) to the
spawned entity. -/
def posSceneAfterAdd : Scene := (posScene.1.add posScene.2 [PosMeta] [88]).1

/-- A component of 16001 bytes: its entry size 8 + 16001 exceeds the 16000
byte chunk budget. -/
def oversizedMeta : CmpMeta := { id := 0, size := 16001, align := 1 }

/-- A zero-sized component type (the test suite derives `Component` on unit
structs, tests/cmp.rs). -/
def zstMeta : CmpMeta := { id := 0, size := 0, align := 1 }

/-- A concrete one-chunk archetype holding two entities, for witnesses:
ids 5 and 6 with `Pos` payloads 9 and 10. -/
def twoEntityArch : Archetype :=
  { meta := ArchetypeMeta.new 0 [PosMeta],
    chunks := [{ ids := [5, 6], cols := [[some 9, some 10]] }],
    free := [0] }

/-! ### List access helpers -/

theorem getD_set_self {α : Type} (l : List α) (i : Nat) (v d : α) (h : i < l.length) :
    (l.set i v).getD i d = v := by
  rw [List.getD_eq_getElem _ _ (by simpa using h)]
  simp

theorem getD_set_ne {α : Type} (l : List α) (i j : Nat) (v d : α) (hne : i ≠ j) :
    (l.set i v).getD j d = l.getD j d := by
  by_cases h : j < l.length
  · rw [List.getD_eq_getElem _ _ (by simpa using h), List.getD_eq_getElem _ _ h,
        List.getElem_set_ne hne]
  · rw [List.getD_eq_default _ _ (by simpa using Nat.le_of_not_lt h),
        List.getD_eq_default _ _ (Nat.le_of_not_lt h)]

theorem getD_dropLast {α : Type} (l : List α) (i : Nat) (d : α) (h : i + 1 < l.length) :
    l.dropLast.getD i d = l.getD i d := by
  rw [List.getD_eq_getElem _ _ (by simp [List.length_dropLast]; omega),
      List.getD_eq_getElem _ _ (by omega), List.getElem_dropLast]

theorem getD_map_cols {α β : Type} (l : List α) (f : α → β) (j : Nat)
    (d : α) (d2 : β) (h : j < l.length) :
    (l.map f).getD j d2 = f (l.getD j d) := by
  rw [List.getD_eq_getElem _ _ (by simpa using h), List.getD_eq_getElem _ _ h,
      List.getElem_map]

theorem getD_concat_length {α : Type} (l : List α) (v d : α) :
    (l ++ [v]).getD l.length d = v := by
  rw [List.getD_eq_getElem _ _ (by simp)]
  simp

theorem getD_mem_of_lt {α : Type} (l : List α) (j : Nat) (d : α) (h : j < l.length) :
    l.getD j d ∈ l := by
  rw [List.getD_eq_getElem _ _ h]
  exact List.getElem_mem h

/-! ### C1 -/

/-- Claim C1: the claim states that `Archetype::remove(loc, drop=true)` invokes each
layout type's `drop_fn` on the removed entity's component data for every
occupied slot, including the last (`len-1`).  The code does not: the drop loop
of archetype.rs:260-289 sits inside the `loc.index() != chunk.len - 1` branch,
so removing the last occupied slot emits no destructor call at all.  This
theorem evaluates the code on that failing class of inputs: whenever the
removed slot is the last occupied one, the event trace of `remove` with
`drop = true` is empty. -/
theorem claim1_remove_last_slot_skips_drop
    (a : Archetype) (loc : EntityLocation)
    (hocc : 0 < (a.chunks.getD loc.chunk default).len)
    (hlast : loc.index = (a.chunks.getD loc.chunk default).len - 1) :
    (a.removeLoc loc true).2.2 = [] := by
  unfold Archetype.removeLoc Chunk.removeAt
  simp [hlast]

/-- Witness for claim C1: removing the last occupied slot (index 1 of a two-entity
chunk) with `drop = true` performs no destructor call. -/
theorem claim1_witness :
    (twoEntityArch.removeLoc { archetype := 0, chunk := 0, index := 1 } true).2.2 = [] :=
  claim1_remove_last_slot_skips_drop twoEntityArch
    { archetype := 0, chunk := 0, index := 1 } (by decide) (by decide)

/-! ### C2 -/

/-- Claim C2: the claim states that the spawn-path component writes are initializing
writes with no destructor invoked on the slot's prior contents.  The code
writes each component with a Rust place assignment
(`*arch.get_mut(loc).unwrap() = self.$num`, component.rs:50, and
`components_mut::<T>()[loc.index()] = cmp`, archetype.rs:318), which first
runs the destructor of the place's previous contents — here the uninitialized
bytes of the slot `Archetype::insert` just reserved.  This theorem evaluates
the code on the failing class of inputs: for any chunk with well-formed
columns, the write of a component at the freshly inserted slot emits exactly
one destructor invocation, on the uninitialized prior contents. -/
theorem claim2_fresh_slot_write_invokes_drop
    (a : Archetype) (e c v j : Nat)
    (hcl : c < a.chunks.length)
    (hwf : ∀ col ∈ (a.chunks.getD c default).cols,
             col.length = (a.chunks.getD c default).len)
    (hj : j < (a.chunks.getD c default).cols.length) :
    ((((a.insertInto e c).1.chunks.getD c default).setCmp j
        (a.insertInto e c).2.index v).2) = [Event.dropPrior none] := by
  have hch : (a.insertInto e c).1.chunks.getD c default
      = (a.chunks.getD c default).pushSlot e := by
    unfold Archetype.insertInto
    exact getD_set_self _ _ _ _ hcl
  have hidx : (a.insertInto e c).2.index = (a.chunks.getD c default).len := rfl
  rw [hch, hidx]
  unfold Chunk.setCmp Chunk.pushSlot
  have hcol : ((a.chunks.getD c default).cols.map (fun col => col ++ [none])).getD j []
      = (a.chunks.getD c default).cols.getD j [] ++ [none] :=
    getD_map_cols _ _ _ [] [] hj
  have hlen : ((a.chunks.getD c default).cols.getD j []).length
      = (a.chunks.getD c default).len :=
    hwf _ (getD_mem_of_lt _ _ _ hj)
  simp only [hcol]
  rw [← hlen, getD_concat_length]

/-- Witness for claim C2: inserting entity 7 into the concrete two-entity chunk and then
writing its `Pos` component invokes the destructor on the slot's uninitialized
prior contents. -/
theorem claim2_witness :
    ((((twoEntityArch.insertInto 7 0).1.chunks.getD 0 default).setCmp 0
        (twoEntityArch.insertInto 7 0).2.index 42).2) = [Event.dropPrior none] :=
  claim2_fresh_slot_write_invokes_drop twoEntityArch 7 0 42 0
    (by decide) (by decide) (by decide)

/-! ### C9 -/

/-- Behavior of `Chunk.removeAt` on the last occupied slot: no swap, no move report, no
destructor calls. -/
theorem removeAt_of_last (ch : Chunk) (slot : Nat) (drop : Bool) (h : slot = ch.len - 1) :
    ch.removeAt slot drop =
      ({ ids := ch.ids.dropLast, cols := ch.cols.map List.dropLast }, none, []) := by
  unfold Chunk.removeAt
  rw [if_neg (by simp [h])]

/-- Behavior of `Chunk.removeAt` on a non-last slot: the last slot's id and column entries
are copied into it and the previous last id reported as moved. -/
theorem removeAt_of_ne (ch : Chunk) (slot : Nat) (drop : Bool) (h : slot ≠ ch.len - 1) :
    ch.removeAt slot drop =
      ({ ids := (ch.ids.set slot (ch.ids.getD (ch.len - 1) 0)).dropLast,
         cols := ch.cols.map
           (fun col => (col.set slot (col.getD (ch.len - 1) none)).dropLast) },
       some (ch.ids.getD (ch.len - 1) 0),
       if drop then ch.cols.map (fun col => Event.dropPrior (col.getD slot none)) else []) := by
  unfold Chunk.removeAt
  rw [if_pos h]

/-- Claim C9: swap-remove locality of `Archetype::remove` (archetype.rs:233-306).
For a valid occupied location: removing the last occupied slot returns `none`;
removing a non-last slot returns `some id` where `id` was stored at slot
`len-1` before the call, and that entity's id and every component column entry
now occupy the removed slot. -/
theorem claim9_swap_remove_locality
    (a : Archetype) (loc : EntityLocation) (drop : Bool)
    (hc : loc.chunk < a.chunks.length)
    (hs : loc.index < (a.chunks.getD loc.chunk default).len)
    (hwf : ∀ col ∈ (a.chunks.getD loc.chunk default).cols,
             col.length = (a.chunks.getD loc.chunk default).len) :
    (loc.index = (a.chunks.getD loc.chunk default).len - 1 →
        (a.removeLoc loc drop).2.1 = none) ∧
    (loc.index ≠ (a.chunks.getD loc.chunk default).len - 1 →
        (a.removeLoc loc drop).2.1 =
          some ((a.chunks.getD loc.chunk default).ids.getD
                  ((a.chunks.getD loc.chunk default).len - 1) 0) ∧
        ((a.removeLoc loc drop).1.chunks.getD loc.chunk default).ids.getD loc.index 0 =
          (a.chunks.getD loc.chunk default).ids.getD
            ((a.chunks.getD loc.chunk default).len - 1) 0 ∧
        ∀ j, j < (a.chunks.getD loc.chunk default).cols.length →
          (((a.removeLoc loc drop).1.chunks.getD loc.chunk default).cols.getD j []).getD
              loc.index none =
            ((a.chunks.getD loc.chunk default).cols.getD j []).getD
              ((a.chunks.getD loc.chunk default).len - 1) none) := by
  have hr : (a.removeLoc loc drop).2 =
      ((a.chunks.getD loc.chunk default).removeAt loc.index drop).2 := rfl
  have hnew : (a.removeLoc loc drop).1.chunks.getD loc.chunk default =
      ((a.chunks.getD loc.chunk default).removeAt loc.index drop).1 := by
    unfold Archetype.removeLoc
    exact getD_set_self _ _ _ _ hc
  constructor
  · intro hlast
    show ((a.removeLoc loc drop).2).1 = none
    rw [hr, removeAt_of_last _ _ _ hlast]
  · intro hne
    have hidx : loc.index + 1 < (a.chunks.getD loc.chunk default).len := by
      omega
    refine ⟨?_, ?_, ?_⟩
    · show ((a.removeLoc loc drop).2).1 = _
      rw [hr, removeAt_of_ne _ _ _ hne]
    · rw [hnew, removeAt_of_ne _ _ _ hne]
      exact (getD_dropLast _ _ _ (by simpa using hidx)).trans
        (getD_set_self _ _ _ _ hs)
    · intro j hj
      rw [hnew, removeAt_of_ne _ _ _ hne]
      have hcolj := getD_map_cols
        (a.chunks.getD loc.chunk default).cols
        (fun col => (col.set loc.index
          (col.getD ((a.chunks.getD loc.chunk default).len - 1) none)).dropLast) j [] [] hj
      have hlenj : ((a.chunks.getD loc.chunk default).cols.getD j []).length
          = (a.chunks.getD loc.chunk default).len :=
        hwf _ (getD_mem_of_lt _ _ _ hj)
      simp only [hcolj]
      rw [getD_dropLast _ _ _ (by rw [List.length_set, hlenj]; omega),
          getD_set_self _ _ _ _ (by rw [hlenj]; exact hs)]

/-- Witness for claim C9: removing slot 0 of the concrete two-entity chunk relocates
entity 6 (previously at slot 1 = `len-1`) and its component into slot 0, and
reports it as moved; removing the last slot of the result returns `none`. -/
theorem claim9_witness :
    (twoEntityArch.removeLoc { archetype := 0, chunk := 0, index := 0 } true).2.1 =
      some ((twoEntityArch.chunks.getD 0 default).ids.getD 1 0) :=
  ((claim9_swap_remove_locality twoEntityArch
      { archetype := 0, chunk := 0, index := 0 } true
      (by decide) (by decide) (by decide)).2 (by decide)).1

/-! ### C3 -/

/-- Claim C3: the claim states that `Scene::add` with a tuple whose component types
are all already present leaves `directory[e]` unchanged.  The code
(scene.rs:122-214) has no early return for that case: it always inserts the
entity into the (here identical) target archetype, copies the components
across, and swap-removes the old slot.  Evaluated on the concrete scenario —
spawn one entity with `Pos`, then `add` a `Pos` again — the directory entry
changes from slot 0 to slot 1 of the same chunk, while the chunk's length ends
at 1, so the recorded slot is not even occupied. -/
theorem claim3_add_existing_changes_directory :
    posScene.1.entities.get posScene.2 = { archetype := 0, chunk := 0, index := 0 } ∧
    (posScene.1.add posScene.2 [PosMeta] [88]).2 = true ∧
    posSceneAfterAdd.entities.get posScene.2 = { archetype := 0, chunk := 0, index := 1 } ∧
    posSceneAfterAdd.entities.get posScene.2 ≠ posScene.1.entities.get posScene.2 ∧
    ((posSceneAfterAdd.archetypes.getD 0 default).chunks.getD 0 default).len = 1 := by
  refine ⟨by decide, by decide, by decide, by decide, by decide⟩

/-! ### C4 -/

/-- Claim C4: the claim states that the spawn-path registry key and the
add-migration-path registry key agree for identical membership, both following
the canonical `(alignment DESC, type_id ASC)` order.  On the add path the key
is sorted by `types.sort()` on a `Vec<TypeId>` (scene.rs:171), i.e. by type id
alone.  For a membership of two types whose alignment order disagrees with
their id order — `A` (id 0, align 4) and `B` (id 1, align 8) — the spawn key
is `[1, 0]` but the key built when `B` is added to an entity holding only `A`
is `[0, 1]`: the keys differ, so the two paths resolve to distinct registry
entries for the same membership. -/
theorem claim4_spawn_add_keys_differ :
    spawnKey [{ id := 0, size := 4, align := 4 }, { id := 1, size := 8, align := 8 }]
        = [1, 0] ∧
    addPathKey [{ id := 0, size := 4, align := 4 }] [{ id := 1, size := 8, align := 8 }]
        = [0, 1] ∧
    spawnKey [{ id := 0, size := 4, align := 4 }, { id := 1, size := 8, align := 8 }]
        ≠ addPathKey [{ id := 0, size := 4, align := 4 }] [{ id := 1, size := 8, align := 8 }] := by
  refine ⟨by decide, by decide, by decide⟩

/-! ### C5 -/

/-- Claim C5: the claim states that building a layout for a component set whose
entry size exceeds `TARGET_CHUNK_BYTES` fails with the
`EmptyOrOversizedComponent` error, so every built layout has capacity ≥ 1.
No such check exists in `ArchetypeMeta::new` (arch/meta.rs:30-82) or
`Archetype::new` (archetype.rs:108-168): the construction is total, and for a
16001-byte component (entry size 16009 > 16000) it simply returns a layout
with capacity `max = 0`. -/
theorem claim5_oversized_layout_built_with_capacity_zero :
    TARGET_CHUNK_BYTES < entrySize [oversizedMeta] ∧
    (ArchetypeMeta.new 0 [oversizedMeta]).max = 0 := by
  refine ⟨by decide, by decide⟩

/-! ### C7 -/

/-- Counterexample for claim C7: the claim asserts that for every sorted, duplicate-free
component set with entry size at most `TARGET_CHUNK_BYTES`, every column
offset lies in `[capacity * sizeof(EntityId), alloc_bytes)`.  A zero-sized
component (the test suite derives `Component` on unit structs) satisfies the
precondition (entry size 8 ≤ 16000) yet gets offset 16000 with
`alloc_bytes = 16000`: the offset is not below `alloc_bytes`. -/
theorem claim7_counterexample_zero_size_offset :
    entrySize [zstMeta] ≤ TARGET_CHUNK_BYTES ∧
    ¬ (∀ p ∈ (ArchetypeMeta.new 0 [zstMeta]).cmp,
         p.2 < (ArchetypeMeta.new 0 [zstMeta]).allocBytes) := by
  refine ⟨by decide, by decide⟩

/-- Padding a running offset up to the next multiple of a positive alignment
(`alloc += (align - alloc % align) % align`) produces a multiple of the
alignment. -/
theorem pad_align (x a : Nat) (ha : 0 < a) : (x + (a - x % a) % a) % a = 0 := by
  rcases Nat.eq_zero_or_pos (x % a) with h | h
  · rw [h, Nat.sub_zero, Nat.mod_self, Nat.add_zero, h]
  · have hlt : x % a < a := Nat.mod_lt _ ha
    have hsm : (a - x % a) % a = a - x % a := Nat.mod_eq_of_lt (by omega)
    rw [hsm]
    have hd := Nat.div_add_mod x a
    have h3 : x + (a - x % a) = a * (x / a + 1) := by
      have hmul : a * (x / a + 1) = a * (x / a) + a := by ring
      omega
    rw [h3]
    exact Nat.mul_mod_right _ _

/-- The running allocation size of the offset loop never decreases. -/
theorem layoutOffsets_alloc_mono (max : Nat) (ts : List CmpMeta) :
    ∀ alloc, alloc ≤ (layoutOffsets max alloc ts).1 := by
  induction ts with
  | nil => intro alloc; simp [layoutOffsets]
  | cons t ts ih =>
      intro alloc
      have h := ih (alloc + (t.align - alloc % t.align) % t.align + t.size * max)
      simp only [layoutOffsets]
      omega

/-- Every `(meta, offset)` pair produced by the offset loop satisfies: the
meta comes from the input list, the offset is at least the starting
allocation, the offset is aligned, and the column's byte range ends within the
final allocation size. -/
theorem layoutOffsets_mem (max : Nat) (ts : List CmpMeta)
    (hal : ∀ t ∈ ts, 0 < t.align) :
    ∀ alloc, ∀ p ∈ (layoutOffsets max alloc ts).2,
      p.1 ∈ ts ∧ alloc ≤ p.2 ∧ p.2 % p.1.align = 0 ∧
      p.2 + p.1.size * max ≤ (layoutOffsets max alloc ts).1 := by
  induction ts with
  | nil => intro alloc p hp; simp [layoutOffsets] at hp
  | cons t ts ih =>
      intro alloc p hp
      simp only [layoutOffsets, List.mem_cons] at hp
      rcases hp with rfl | hp
      · refine ⟨List.mem_cons_self _ _, Nat.le_add_right _ _,
          pad_align _ _ (hal t (List.mem_cons_self _ _)), ?_⟩
        simp only [layoutOffsets]
        exact layoutOffsets_alloc_mono max ts _
      · have hal2 : ∀ u ∈ ts, 0 < u.align := fun u hu => hal u (List.mem_cons_of_mem _ hu)
        have h := ih hal2 (alloc + (t.align - alloc % t.align) % t.align + t.size * max) p hp
        refine ⟨List.mem_cons_of_mem _ h.1, by omega, h.2.2.1, ?_⟩
        simp only [layoutOffsets]
        exact h.2.2.2

/-- The columns produced by the offset loop are laid out sequentially: each
one's byte range ends before the next one's offset. -/
theorem layoutOffsets_pairwise (max : Nat) (ts : List CmpMeta)
    (hal : ∀ t ∈ ts, 0 < t.align) :
    ∀ alloc,
      List.Pairwise (fun p q => p.2 + p.1.size * max ≤ q.2)
        (layoutOffsets max alloc ts).2 := by
  induction ts with
  | nil => intro alloc; simp [layoutOffsets]
  | cons t ts ih =>
      intro alloc
      have hal2 : ∀ u ∈ ts, 0 < u.align := fun u hu => hal u (List.mem_cons_of_mem _ hu)
      simp only [layoutOffsets, List.pairwise_cons]
      refine ⟨?_, ih hal2 _⟩
      intro q hq
      exact (layoutOffsets_mem max ts hal2 _ q hq).2.1

/-- Claim C7, amended: the claim's layout invariants hold once the component set is
additionally restricted to components of nonzero size (with valid, positive
alignments): the code rejects neither zero-sized nor oversized components, and
with a zero-sized component the offset of its (empty) column coincides with
`alloc_bytes`, leaving the claimed half-open range.  For every sorted,
duplicate-free component set of positive sizes and alignments with entry size
at most `TARGET_CHUNK_BYTES`: capacity is at least 1, every column offset lies
in `[capacity * sizeof(EntityId), alloc_bytes)` and is a multiple of its
type's alignment, and no two columns' byte ranges overlap (nor does any
overlap the id column, which ends at `capacity * sizeof(EntityId)`). -/
theorem claim7_layout_invariants (id : Nat) (types : List CmpMeta)
    (hsorted : List.Pairwise cmpCanonicalLt types)
    (hal : ∀ t ∈ types, 0 < t.align)
    (hsz : ∀ t ∈ types, 0 < t.size)
    (hent : entrySize types ≤ TARGET_CHUNK_BYTES) :
    1 ≤ (ArchetypeMeta.new id types).max ∧
    (∀ p ∈ (ArchetypeMeta.new id types).cmp,
       ENTITY_SIZE * (ArchetypeMeta.new id types).max ≤ p.2 ∧
       p.2 < (ArchetypeMeta.new id types).allocBytes ∧
       p.2 % p.1.align = 0) ∧
    List.Pairwise (fun p q =>
        p.2 + p.1.size * (ArchetypeMeta.new id types).max ≤ q.2 ∨
        q.2 + q.1.size * (ArchetypeMeta.new id types).max ≤ p.2)
      (ArchetypeMeta.new id types).cmp := by
  have hpos : 0 < entrySize types := by
    unfold entrySize ENTITY_SIZE
    omega
  have hmax : 1 ≤ (ArchetypeMeta.new id types).max := by
    show 1 ≤ TARGET_CHUNK_BYTES / entrySize types
    rw [Nat.one_le_div_iff hpos]
    exact hent
  have hcmp : (ArchetypeMeta.new id types).cmp =
      (layoutOffsets (ArchetypeMeta.new id types).max
        (ENTITY_SIZE * (ArchetypeMeta.new id types).max) types).2 := rfl
  have halloc : (ArchetypeMeta.new id types).allocBytes =
      (layoutOffsets (ArchetypeMeta.new id types).max
        (ENTITY_SIZE * (ArchetypeMeta.new id types).max) types).1 := rfl
  refine ⟨hmax, ?_, ?_⟩
  · intro p hp
    rw [hcmp] at hp
    have h := layoutOffsets_mem _ types hal _ p hp
    refine ⟨h.2.1, ?_, h.2.2.1⟩
    rw [halloc]
    have hszp : 0 < p.1.size := hsz _ h.1
    have hend := h.2.2.2
    have : 0 < p.1.size * (ArchetypeMeta.new id types).max :=
      Nat.mul_pos hszp hmax
    omega
  · rw [hcmp]
    exact (layoutOffsets_pairwise _ types hal _).imp (fun h => Or.inl h)

/-- Witness for claim C7: the amended invariants instantiated at the `(Pos, Vel)` set. -/
theorem claim7_witness :
    1 ≤ (ArchetypeMeta.new 0 [PosMeta, VelMeta]).max ∧
    (∀ p ∈ (ArchetypeMeta.new 0 [PosMeta, VelMeta]).cmp,
       ENTITY_SIZE * (ArchetypeMeta.new 0 [PosMeta, VelMeta]).max ≤ p.2 ∧
       p.2 < (ArchetypeMeta.new 0 [PosMeta, VelMeta]).allocBytes ∧
       p.2 % p.1.align = 0) ∧
    List.Pairwise (fun p q =>
        p.2 + p.1.size * (ArchetypeMeta.new 0 [PosMeta, VelMeta]).max ≤ q.2 ∨
        q.2 + q.1.size * (ArchetypeMeta.new 0 [PosMeta, VelMeta]).max ≤ p.2)
      (ArchetypeMeta.new 0 [PosMeta, VelMeta]).cmp :=
  claim7_layout_invariants 0 [PosMeta, VelMeta]
    (by decide) (by decide) (by decide) (by decide)

/-! ### C8 -/

theorem getD_append_left {α : Type} (l m : List α) (i : Nat) (d : α) (h : i < l.length) :
    (l ++ m).getD i d = l.getD i d := by
  rw [List.getD_eq_getElem _ _ (by simp; omega), List.getD_eq_getElem _ _ h,
      List.getElem_append_left]

theorem pushSlot_len (ch : Chunk) (e : Nat) : (ch.pushSlot e).len = ch.len + 1 := by
  simp [Chunk.pushSlot, Chunk.len]

theorem removeAt_len (ch : Chunk) (slot : Nat) (drop : Bool) :
    (ch.removeAt slot drop).1.len = ch.len - 1 := by
  unfold Chunk.removeAt
  split <;> simp [Chunk.len]

theorem insertInto_chunks_length (a : Archetype) (e c : Nat) :
    (a.insertInto e c).1.chunks.length = a.chunks.length := by
  unfold Archetype.insertInto
  simp

theorem insertInto_getD_self (a : Archetype) (e c : Nat) (h : c < a.chunks.length) :
    (a.insertInto e c).1.chunks.getD c default = (a.chunks.getD c default).pushSlot e := by
  unfold Archetype.insertInto
  exact getD_set_self _ _ _ _ h

theorem insertInto_getD_ne (a : Archetype) (e c i : Nat) (h : c ≠ i) :
    (a.insertInto e c).1.chunks.getD i default = a.chunks.getD i default := by
  unfold Archetype.insertInto
  exact getD_set_ne _ _ _ _ _ h

theorem insertInto_free (a : Archetype) (e c : Nat) :
    (a.insertInto e c).1.free =
      if ((a.chunks.getD c default).pushSlot e).len = a.meta.max
      then a.free.erase c else a.free := rfl

theorem insertInto_meta (a : Archetype) (e c : Nat) :
    (a.insertInto e c).1.meta = a.meta := rfl

theorem newChunk_meta (a : Archetype) : (a.newChunk).1.meta = a.meta := rfl

theorem removeLoc_meta (a : Archetype) (loc : EntityLocation) (drop : Bool) :
    (a.removeLoc loc drop).1.meta = a.meta := rfl

/-- The archetype's layout metadata is never changed by a mutating step. -/
theorem archStep_meta {a b : Archetype} (h : ArchStep a b) : b.meta = a.meta := by
  cases h with
  | ins h => cases h with
    | intoFree e c hc => rfl
    | intoNew e hf => rfl
  | rem loc drop hc hs => rfl

/-- Free-set correctness is preserved by an insert into a chunk taken from the
free set. -/
theorem freeInv_insertInto (a : Archetype) (e c : Nat) (hmax : 1 ≤ a.meta.max)
    (hinv : FreeInv a) (hc : c ∈ a.free) : FreeInv (a.insertInto e c).1 := by
  obtain ⟨hnd, hsub, hiff⟩ := hinv
  have hclen : c < a.chunks.length := hsub c hc
  have hlenc := (hiff c hclen).1
  have hltc := (hiff c hclen).2.1 hc
  refine ⟨?_, ?_, ?_⟩
  · rw [insertInto_free]
    split
    · exact hnd.erase _
    · exact hnd
  · intro x hx
    rw [insertInto_chunks_length]
    rw [insertInto_free] at hx
    apply hsub
    by_cases hfull : ((a.chunks.getD c default).pushSlot e).len = a.meta.max
    · rw [if_pos hfull] at hx
      exact List.mem_of_mem_erase hx
    · rw [if_neg hfull] at hx
      exact hx
  · intro i hi
    rw [insertInto_chunks_length] at hi
    rw [insertInto_meta, insertInto_free]
    by_cases hic : i = c
    · subst hic
      rw [insertInto_getD_self _ _ _ hclen, pushSlot_len]
      refine ⟨by omega, ?_⟩
      by_cases hfull : (a.chunks.getD i default).len + 1 = a.meta.max
      · rw [if_pos hfull]
        constructor
        · intro hmem
          exact absurd hmem hnd.not_mem_erase
        · intro hlt
          omega
      · rw [if_neg hfull]
        constructor
        · intro _
          omega
        · intro _
          exact hc
    · rw [insertInto_getD_ne _ _ _ _ (fun h => hic h.symm)]
      refine ⟨(hiff i hi).1, ?_⟩
      by_cases hfull : ((a.chunks.getD c default).pushSlot e).len = a.meta.max
      · rw [if_pos hfull, hnd.mem_erase_iff]
        constructor
        · intro h
          exact (hiff i hi).2.1 h.2
        · intro h
          exact ⟨hic, (hiff i hi).2.2 h⟩
      · rw [if_neg hfull]
        exact (hiff i hi).2

/-- Free-set correctness is preserved by allocating a fresh chunk (when the
free set is empty) and inserting into it. -/
theorem freeInv_insertNew (a : Archetype) (e : Nat) (hmax : 1 ≤ a.meta.max)
    (hinv : FreeInv a) (hf : a.free = []) :
    FreeInv ((a.newChunk).1.insertInto e (a.newChunk).2).1 := by
  obtain ⟨hnd, hsub, hiff⟩ := hinv
  set n := a.chunks.length with hn
  have hb : (a.newChunk).1 =
      { a with chunks := a.chunks ++ [{ ids := [], cols := a.meta.cmp.map (fun _ => []) }],
               free := a.free.insert n } := rfl
  have hc2 : (a.newChunk).2 = n := rfl
  have hfree1 : (a.newChunk).1.free = [n] := by
    rw [hb, hf]
    rfl
  have hlen1 : (a.newChunk).1.chunks.length = n + 1 := by
    rw [hb]
    simp
  have hgetn : (a.newChunk).1.chunks.getD n default =
      { ids := [], cols := a.meta.cmp.map (fun _ => []) } := by
    rw [hb]
    exact getD_concat_length _ _ _
  have hgetlt : ∀ i, i < n → (a.newChunk).1.chunks.getD i default = a.chunks.getD i default := by
    intro i hi
    rw [hb]
    exact getD_append_left _ _ _ _ hi
  rw [hc2]
  have hmeta : (a.newChunk).1.meta = a.meta := rfl
  have hnlt : n < (a.newChunk).1.chunks.length := by omega
  have hone : (({ ids := [], cols := a.meta.cmp.map (fun _ => []) } : Chunk).pushSlot e).len
      = 1 := rfl
  refine ⟨?_, ?_, ?_⟩
  · rw [insertInto_free, hfree1]
    split
    · exact (List.nodup_singleton n).erase _
    · exact List.nodup_singleton n
  · intro x hx
    rw [insertInto_chunks_length, hlen1]
    rw [insertInto_free, hfree1] at hx
    have hx2 : x ∈ [n] := by
      by_cases hfull : ((((a.newChunk).1.chunks.getD n default)).pushSlot e).len
          = (a.newChunk).1.meta.max
      · rw [if_pos hfull] at hx
        exact List.mem_of_mem_erase hx
      · rw [if_neg hfull] at hx
        exact hx
    have : x = n := List.mem_singleton.mp hx2
    omega
  · intro i hi
    rw [insertInto_chunks_length, hlen1] at hi
    rw [insertInto_meta, hmeta, insertInto_free, hfree1, hmeta, hgetn, hone]
    by_cases hin : i = n
    · rw [hin, insertInto_getD_self _ _ _ hnlt, hgetn, hone]
      refine ⟨by omega, ?_⟩
      by_cases hfull : (1 : Nat) = a.meta.max
      · rw [if_pos hfull]
        constructor
        · intro hmem
          exact absurd hmem ((List.nodup_singleton n).not_mem_erase)
        · intro hlt
          omega
      · rw [if_neg hfull]
        constructor
        · intro _
          omega
        · intro _
          exact List.mem_singleton.mpr rfl
    · have hilt : i < n := by omega
      rw [insertInto_getD_ne _ _ _ _ (fun h => hin h.symm), hgetlt i hilt]
      have hnotfree : ¬ (i ∈ a.free) := by
        rw [hf]
        exact List.not_mem_nil i
      have hlen := (hiff i hilt).1
      have heq : (a.chunks.getD i default).len = a.meta.max := by
        have h2 := (hiff i hilt).2
        have h3 : ¬ ((a.chunks.getD i default).len < a.meta.max) :=
          fun hl => hnotfree (h2.mpr hl)
        omega
      refine ⟨hlen, ?_⟩
      constructor
      · intro hmem
        have hmem2 : i ∈ [n] := by
          by_cases hfull : (1 : Nat) = a.meta.max
          · rw [if_pos hfull] at hmem
            exact List.mem_of_mem_erase hmem
          · rw [if_neg hfull] at hmem
            exact hmem
        exact absurd (List.mem_singleton.mp hmem2) hin
      · intro hlt
        omega

/-- Free-set correctness is preserved by a valid `remove`. -/
theorem freeInv_removeLoc (a : Archetype) (loc : EntityLocation) (drop : Bool)
    (hmax : 1 ≤ a.meta.max) (hinv : FreeInv a)
    (hc : loc.chunk < a.chunks.length)
    (hs : loc.index < (a.chunks.getD loc.chunk default).len) :
    FreeInv (a.removeLoc loc drop).1 := by
  obtain ⟨hnd, hsub, hiff⟩ := hinv
  have hlenc := (hiff loc.chunk hc).1
  have hchunks : (a.removeLoc loc drop).1.chunks =
      a.chunks.set loc.chunk ((a.chunks.getD loc.chunk default).removeAt loc.index drop).1 :=
    rfl
  have hfree : (a.removeLoc loc drop).1.free = a.free.insert loc.chunk := rfl
  have hlen : (a.removeLoc loc drop).1.chunks.length = a.chunks.length := by
    rw [hchunks]
    simp
  refine ⟨?_, ?_, ?_⟩
  · rw [hfree]
    exact hnd.insert
  · intro x hx
    rw [hlen]
    rw [hfree, List.mem_insert_iff] at hx
    rcases hx with rfl | hx
    · exact hc
    · exact hsub x hx
  · intro i hi
    rw [hlen] at hi
    rw [removeLoc_meta, hfree]
    by_cases hic : i = loc.chunk
    · subst hic
      have hget : (a.removeLoc loc drop).1.chunks.getD loc.chunk default =
          ((a.chunks.getD loc.chunk default).removeAt loc.index drop).1 := by
        rw [hchunks]
        exact getD_set_self _ _ _ _ hc
      rw [hget, removeAt_len]
      refine ⟨by omega, ?_⟩
      constructor
      · intro _
        omega
      · intro _
        exact List.mem_insert_self _ _
    · have hget : (a.removeLoc loc drop).1.chunks.getD i default =
          a.chunks.getD i default := by
        rw [hchunks]
        exact getD_set_ne _ _ _ _ _ (fun h => hic h.symm)
      rw [hget]
      refine ⟨(hiff i hi).1, ?_⟩
      rw [List.mem_insert_iff]
      constructor
      · intro hmem
        rcases hmem with rfl | hmem
        · exact absurd rfl hic
        · exact (hiff i hi).2.1 hmem
      · intro hlt
        exact Or.inr ((hiff i hi).2.2 hlt)

/-- Free-set correctness is preserved by every mutating archetype step. -/
theorem freeInv_step {a b : Archetype} (hmax : 1 ≤ a.meta.max)
    (hinv : FreeInv a) (h : ArchStep a b) : FreeInv b := by
  cases h with
  | ins h => cases h with
    | intoFree e c hc => exact freeInv_insertInto a e c hmax hinv hc
    | intoNew e hf => exact freeInv_insertNew a e hmax hinv hf
  | rem loc drop hc hs => exact freeInv_removeLoc a loc drop hmax hinv hc hs

/-- Layout metadata is constant along any reachable history. -/
theorem archReach_meta {init a : Archetype} (h : ArchReach init a) : a.meta = init.meta := by
  induction h with
  | refl => rfl
  | step hr hs ih => rw [archStep_meta hs, ih]

/-- Free-set correctness holds in every reachable state. -/
theorem freeInv_reach {init a : Archetype} (hmax : 1 ≤ init.meta.max)
    (hinit : FreeInv init) (h : ArchReach init a) : FreeInv a := by
  induction h with
  | refl => exact hinit
  | step hr hs ih => exact freeInv_step (by rw [archReach_meta hr]; exact hmax) ih hs

/-- Claim C8: free-set correctness of the archetype (archetype.rs:201-306,
arch/mod.rs:44-69).  For every state reachable from a fresh archetype with
capacity at least 1 by inserts and valid removes — chunk allocation inside
insert included — the free set only holds existing chunk indices, and a chunk
index is in the free set exactly when that chunk's length is below the
layout's capacity. -/
theorem claim8_free_set_correct (id : Nat) (types : List CmpMeta)
    (hmax : 1 ≤ (ArchetypeMeta.new id types).max)
    (a : Archetype) (hr : ArchReach (Archetype.new id types) a) :
    (∀ c ∈ a.free, c < a.chunks.length) ∧
    ∀ c, c < a.chunks.length →
      (c ∈ a.free ↔ (a.chunks.getD c default).len < a.meta.max) := by
  have hinit : FreeInv (Archetype.new id types) := by
    refine ⟨List.nodup_nil, ?_, ?_⟩
    · intro c hc
      exact absurd hc (List.not_mem_nil c)
    · intro i hi
      exact absurd hi (by simp [Archetype.new])
  have hinv := freeInv_reach hmax hinit hr
  exact ⟨hinv.2.1, fun c hc => (hinv.2.2 c hc).2⟩

/-- Witness for claim C8: the invariant instantiated at the state reached by a fresh
chunk allocation plus one insert into the `(Pos, Vel)` archetype. -/
theorem claim8_witness :
    (∀ c ∈ ((posVelArch.newChunk).1.insertInto 0 (posVelArch.newChunk).2).1.free,
       c < ((posVelArch.newChunk).1.insertInto 0 (posVelArch.newChunk).2).1.chunks.length) ∧
    ∀ c, c < ((posVelArch.newChunk).1.insertInto 0 (posVelArch.newChunk).2).1.chunks.length →
      (c ∈ ((posVelArch.newChunk).1.insertInto 0 (posVelArch.newChunk).2).1.free ↔
        (((posVelArch.newChunk).1.insertInto 0 (posVelArch.newChunk).2).1.chunks.getD c
            default).len <
          ((posVelArch.newChunk).1.insertInto 0 (posVelArch.newChunk).2).1.meta.max) :=
  claim8_free_set_correct 0 [PosMeta, VelMeta] (by decide) _
    (ArchReach.step ArchReach.refl (ArchStep.ins (InsStep.intoNew posVelArch 0 rfl)))

/-! ### C6 -/

theorem sum_map_set (l : List Chunk) (i : Nat) (v : Chunk) (h : i < l.length) :
    ((l.set i v).map Chunk.len).sum + (l.getD i default).len
      = (l.map Chunk.len).sum + v.len := by
  induction l generalizing i with
  | nil => simp at h
  | cons x xs ih =>
      cases i with
      | zero =>
          simp [List.set]
          omega
      | succ i =>
          have hx := ih i (by simpa using Nat.lt_of_succ_lt_succ h)
          simp only [List.set, List.map_cons, List.sum_cons, List.getD_cons_succ]
          omega

theorem sumLens_insertInto (a : Archetype) (e c : Nat) (h : c < a.chunks.length) :
    sumLens (a.insertInto e c).1 = sumLens a + 1 := by
  have hset : (a.insertInto e c).1.chunks =
      a.chunks.set c ((a.chunks.getD c default).pushSlot e) := rfl
  have hs := sum_map_set a.chunks c ((a.chunks.getD c default).pushSlot e) h
  rw [pushSlot_len] at hs
  unfold sumLens
  rw [hset]
  omega

theorem sumLens_newChunk (a : Archetype) : sumLens (a.newChunk).1 = sumLens a := by
  unfold sumLens Archetype.newChunk
  simp [Chunk.len]

theorem newChunk_chunks_length (a : Archetype) :
    (a.newChunk).1.chunks.length = a.chunks.length + 1 := by
  unfold Archetype.newChunk
  simp

/-- The insert-only invariant advances by one with each insert. -/
theorem insOnlyInv_step {k : Nat} {a b : Archetype} (hmax : 1 ≤ a.meta.max)
    (hinv : InsOnlyInv k a) (h : InsStep a b) : InsOnlyInv (k + 1) b := by
  obtain ⟨hfinv, hlen1, hpos, hsum⟩ := hinv
  have hfinv2 : FreeInv b := freeInv_step hmax hfinv (ArchStep.ins h)
  cases h with
  | intoFree e c hc =>
      have hclen : c < a.chunks.length := hfinv.2.1 c hc
      refine ⟨hfinv2, ?_, ?_, ?_⟩
      · rw [insertInto_free]
        split
        · have := List.length_erase_of_mem hc
          omega
        · exact hlen1
      · intro i hi
        rw [insertInto_chunks_length] at hi
        by_cases hic : i = c
        · rw [hic, insertInto_getD_self _ _ _ hclen, pushSlot_len]
          omega
        · rw [insertInto_getD_ne _ _ _ _ (fun hh => hic hh.symm)]
          exact hpos i hi
      · rw [sumLens_insertInto _ _ _ hclen]
        omega
  | intoNew e hf =>
      have hn : (a.newChunk).2 = a.chunks.length := rfl
      have hnlt : (a.newChunk).2 < (a.newChunk).1.chunks.length := by
        rw [hn, newChunk_chunks_length]
        omega
      have hfree1 : (a.newChunk).1.free = [a.chunks.length] := by
        show a.free.insert a.chunks.length = _
        rw [hf]
        rfl
      have hgetn : (a.newChunk).1.chunks.getD a.chunks.length default =
          { ids := [], cols := a.meta.cmp.map (fun _ => []) } := by
        show (a.chunks ++ [_]).getD a.chunks.length default = _
        exact getD_concat_length _ _ _
      have hgetlt : ∀ i, i < a.chunks.length →
          (a.newChunk).1.chunks.getD i default = a.chunks.getD i default := by
        intro i hi
        show (a.chunks ++ [_]).getD i default = _
        exact getD_append_left _ _ _ _ hi
      refine ⟨hfinv2, ?_, ?_, ?_⟩
      · rw [insertInto_free, hfree1, hn]
        split
        · simp
        · simp
      · intro i hi
        rw [insertInto_chunks_length, newChunk_chunks_length] at hi
        by_cases hic : i = (a.newChunk).2
        · rw [hic, insertInto_getD_self _ _ _ hnlt, hn, hgetn, pushSlot_len]
          omega
        · rw [insertInto_getD_ne _ _ _ _ (fun hh => hic hh.symm)]
          have hilt : i < a.chunks.length := by
            rw [hn] at hic
            omega
          rw [hgetlt i hilt]
          exact hpos i hilt
      · rw [sumLens_insertInto _ _ _ hnlt, sumLens_newChunk]
        omega

theorem insChain_meta {init a : Archetype} {k : Nat} (h : InsChain init k a) :
    a.meta = init.meta := by
  induction h with
  | zero => rfl
  | succ hr hs ih => rw [archStep_meta (ArchStep.ins hs), ih]

/-- The insert-only invariant holds after any `k`-insert history. -/
theorem insChain_inv {init : Archetype} (hmax : 1 ≤ init.meta.max)
    (hinit : InsOnlyInv 0 init) {k : Nat} {a : Archetype} (h : InsChain init k a) :
    InsOnlyInv k a := by
  induction h with
  | zero => exact hinit
  | succ hr hs ih =>
      exact insOnlyInv_step (by rw [insChain_meta hr]; exact hmax) ih hs

theorem sum_all_eq (l : List Nat) (c : Nat) (h : ∀ x ∈ l, x = c) :
    l.sum = l.length * c := by
  induction l with
  | nil => simp
  | cons x xs ih =>
      have hx := h x (List.mem_cons_self _ _)
      have hxs := ih (fun y hy => h y (List.mem_cons_of_mem _ hy))
      simp only [List.sum_cons, List.length_cons]
      rw [hx, hxs]
      ring

theorem sum_one_off (l : List Nat) (i : Nat) (hi : i < l.length) (c : Nat)
    (h : ∀ j, j < l.length → j ≠ i → l.getD j 0 = c) :
    l.sum = (l.length - 1) * c + l.getD i 0 := by
  induction l generalizing i with
  | nil => simp at hi
  | cons x xs ih =>
      cases i with
      | zero =>
          have hxs : ∀ y ∈ xs, y = c := by
            intro y hy
            obtain ⟨j, hj, rfl⟩ := List.mem_iff_getElem.mp hy
            have hgj := h (j + 1) (by simpa using Nat.succ_lt_succ hj) (by omega)
            rw [List.getD_cons_succ, List.getD_eq_getElem _ _ hj] at hgj
            exact hgj
          simp only [List.sum_cons, List.length_cons, List.getD_cons_zero,
            Nat.add_sub_cancel]
          rw [sum_all_eq xs c hxs]
          omega
      | succ i =>
          have hx : x = c := by
            have hg0 := h 0 (by omega) (by omega)
            simpa using hg0
          have hion : i < xs.length := by simpa using Nat.lt_of_succ_lt_succ hi
          have hxs := ih i hion (fun j hj hne => by
            have hgj := h (j + 1) (by simpa using Nat.succ_lt_succ hj) (by omega)
            rwa [List.getD_cons_succ] at hgj)
          simp only [List.sum_cons, List.length_cons, List.getD_cons_succ]
          rw [hx, hxs]
          obtain ⟨m, hm⟩ : ∃ m, xs.length = m + 1 := ⟨xs.length - 1, by omega⟩
          rw [hm]
          simp only [Nat.add_sub_cancel]
          ring

/-- Unpacking the insert-only invariant at 100 000 inserts with capacity 500:
exactly 200 chunks, all full. -/
theorem insOnlyInv_final (a : Archetype) (hmax : a.meta.max = 500)
    (hinv : InsOnlyInv 100000 a) :
    a.chunks.length = 200 ∧ ∀ ch ∈ a.chunks, ch.len = 500 := by
  obtain ⟨⟨hnd, hsub, hiff⟩, hlen1, hpos, hsum⟩ := hinv
  have hfull : ∀ i, i < a.chunks.length → i ∉ a.free →
      (a.chunks.getD i default).len = 500 := by
    intro i hi hnf
    have h1 := (hiff i hi).1
    have h2 := (hiff i hi).2
    rw [hmax] at h1 h2
    have : ¬ ((a.chunks.getD i default).len < 500) := fun hl => hnf (h2.mpr hl)
    omega
  have hgetlen : ∀ j, j < a.chunks.length →
      (a.chunks.map Chunk.len).getD j 0 = (a.chunks.getD j default).len := by
    intro j hj
    exact getD_map_cols _ _ _ default 0 hj
  have hsum2 : (a.chunks.map Chunk.len).sum = 100000 := hsum
  have hmain : a.chunks.length = 200 ∧
      ∀ i, i < a.chunks.length → (a.chunks.getD i default).len = 500 := by
    cases hfa : a.free with
    | nil =>
        have hall : ∀ x ∈ a.chunks.map Chunk.len, x = 500 := by
          intro x hx
          obtain ⟨j, hj, rfl⟩ := List.mem_iff_getElem.mp hx
          have hjl : j < a.chunks.length := by simpa using hj
          rw [← List.getD_eq_getElem _ 0 hj, hgetlen j hjl]
          exact hfull j hjl (by rw [hfa]; exact List.not_mem_nil j)
        have hse := sum_all_eq _ 500 hall
        rw [hse] at hsum2
        simp only [List.length_map] at hsum2
        have hn : a.chunks.length = 200 := by omega
        refine ⟨hn, ?_⟩
        intro i hi
        exact hfull i hi (by rw [hfa]; exact List.not_mem_nil i)
    | cons c rest =>
        have hrest : rest = [] := by
          have := hlen1
          rw [hfa] at this
          simp at this
          exact this
        subst hrest
        have hcmem : c ∈ a.free := by rw [hfa]; exact List.mem_singleton.mpr rfl
        have hclen : c < a.chunks.length := hsub c hcmem
        have hcsmall : (a.chunks.getD c default).len < 500 := by
          have := (hiff c hclen).2.1 hcmem
          rwa [hmax] at this
        have hcpos : 1 ≤ (a.chunks.getD c default).len := hpos c hclen
        have hoff := sum_one_off (a.chunks.map Chunk.len) c (by simpa using hclen) 500
          (fun j hj hne => by
            have hjl : j < a.chunks.length := by simpa using hj
            rw [hgetlen j hjl]
            exact hfull j hjl (by
              rw [hfa]
              intro hmem
              exact hne (List.mem_singleton.mp hmem)))
        rw [hgetlen c hclen] at hoff
        rw [hoff] at hsum2
        simp only [List.length_map] at hsum2
        omega
  refine ⟨hmain.1, ?_⟩
  intro ch hch
  obtain ⟨i, hi, rfl⟩ := List.mem_iff_getElem.mp hch
  rw [← List.getD_eq_getElem _ default hi]
  exact hmain.2 i hi

/-- The deterministic `insertE` performs a legitimate insert step. -/
theorem insStep_insertE (a : Archetype) (e : Nat) : InsStep a (a.insertE e).1 := by
  cases hfa : a.free with
  | nil =>
      have heq : a.insertE e = (a.newChunk).1.insertInto e (a.newChunk).2 := by
        unfold Archetype.insertE
        rw [hfa]
      rw [heq]
      exact InsStep.intoNew a e hfa
  | cons c rest =>
      have heq : a.insertE e = a.insertInto e c := by
        unfold Archetype.insertE
        rw [hfa]
      rw [heq]
      exact InsStep.intoFree a e c (by rw [hfa]; exact List.mem_cons_self _ _)

/-- Iterating `insertE` realizes an insert-only history of any length. -/
theorem insChain_iterIns (init : Archetype) : ∀ k, InsChain init k (iterIns init k)
  | 0 => InsChain.zero
  | k + 1 => InsChain.succ (insChain_iterIns init k) (insStep_insertE _ 0)

/-- Claim C6: the capacity law and the `(Pos, Vel)` packing scenario.  For every
component set the built layout's capacity is `⌊16000 / entry_size⌋`
(arch/meta.rs:43-50); for `Pos` and `Vel` (12 bytes each) the entry size is 32
and the capacity 500; and any history of 100 000 inserts into the fresh
`(Pos, Vel)` archetype — however the free chunk is picked — ends with exactly
200 chunks, every one of length 500. -/
theorem claim6_capacity_and_chunk_count :
    (∀ id types, (ArchetypeMeta.new id types).max
        = TARGET_CHUNK_BYTES / entrySize types) ∧
    entrySize [PosMeta, VelMeta] = 32 ∧
    posVelArch.meta.max = 500 ∧
    ∀ a, InsChain posVelArch 100000 a →
      a.chunks.length = 200 ∧ ∀ ch ∈ a.chunks, ch.len = 500 := by
  refine ⟨fun id types => rfl, by decide, by decide, ?_⟩
  intro a hchain
  have hinit : InsOnlyInv 0 posVelArch := by
    refine ⟨⟨List.nodup_nil, ?_, ?_⟩, ?_, ?_, ?_⟩
    · intro c hc
      exact absurd hc (List.not_mem_nil c)
    · intro i hi
      exact absurd hi (by simp [posVelArch, Archetype.new])
    · simp [posVelArch, Archetype.new]
    · intro i hi
      exact absurd hi (by simp [posVelArch, Archetype.new])
    · rfl
  have hinv := insChain_inv (by decide) hinit hchain
  exact insOnlyInv_final a (by rw [insChain_meta hchain]; rfl) hinv

/-- Witness for claim C6: the deterministic 100 000-insert history instantiates the
scenario. -/
theorem claim6_witness :
    (iterIns posVelArch 100000).chunks.length = 200 ∧
    ∀ ch ∈ (iterIns posVelArch 100000).chunks, ch.len = 500 :=
  (claim6_capacity_and_chunk_count.2.2.2 _ (insChain_iterIns posVelArch 100000))

/-! ### C10 -/

theorem countNonNull_cons (x : EntityLocation) (l : List EntityLocation) :
    countNonNull (x :: l) =
      (if x = EntityLocation.NULL then 0 else 1) + countNonNull l := by
  by_cases hx : x = EntityLocation.NULL
  · simp [countNonNull, hx]
  · simp [countNonNull, hx]
    omega

theorem countNonNull_set (l : List EntityLocation) (i : Nat) (h : i < l.length)
    (v : EntityLocation) :
    countNonNull (l.set i v) +
        (if l.getD i EntityLocation.NULL = EntityLocation.NULL then 0 else 1)
      = countNonNull l + (if v = EntityLocation.NULL then 0 else 1) := by
  induction l generalizing i with
  | nil => simp at h
  | cons x xs ih =>
      cases i with
      | zero =>
          simp only [List.set, List.getD_cons_zero]
          rw [countNonNull_cons, countNonNull_cons]
          by_cases hx : x = EntityLocation.NULL <;>
            by_cases hv : v = EntityLocation.NULL <;>
              simp [hx, hv] <;> omega
      | succ i =>
          have hion : i < xs.length := by simpa using Nat.lt_of_succ_lt_succ h
          have hxs := ih i hion
          simp only [List.set, List.getD_cons_succ]
          rw [countNonNull_cons, countNonNull_cons]
          omega

theorem countNonNull_replicate (n : Nat) :
    countNonNull (List.replicate n EntityLocation.NULL) = 0 := by
  induction n with
  | zero => rfl
  | succ n ih =>
      rw [List.replicate_succ, countNonNull_cons, ih]
      simp

theorem em_update_self (m : EntityMap) (k : Nat) (b : Option EMBucket) :
    (m.update k b).chunks k = b := by
  simp [EntityMap.update]

theorem em_update_ne (m : EntityMap) (k k2 : Nat) (b : Option EMBucket) (h : k2 ≠ k) :
    (m.update k b).chunks k2 = m.chunks k2 := by
  simp [EntityMap.update, h]

theorem eInd_lt (e : Nat) : eInd e < 16 := Nat.mod_lt _ (by omega)

/-- The bucket invariant is preserved by an insert of a non-NULL location. -/
theorem emInv_insert (m : EntityMap) (e : Nat) (loc : EntityLocation)
    (hl : loc ≠ EntityLocation.NULL) (hinv : EMInv m) : EMInv (m.insert e loc) := by
  intro k b hb
  unfold EntityMap.insert at hb
  cases hm : m.chunks (cInd e) with
  | some ch =>
      rw [hm] at hb
      obtain ⟨hlen16, hcount, hpos⟩ := hinv (cInd e) ch hm
      by_cases hk : k = cInd e
      · subst hk
        rw [em_update_self] at hb
        cases hb
        have hset := countNonNull_set ch.map (eInd e) (by rw [hlen16]; exact eInd_lt e) loc
        rw [if_neg hl] at hset
        refine ⟨by simpa using hlen16, ?_, ?_⟩
        · show (if ch.map.getD (eInd e) EntityLocation.NULL = EntityLocation.NULL
              then ch.len + 1 else ch.len) = countNonNull (ch.map.set (eInd e) loc)
          by_cases hold : ch.map.getD (eInd e) EntityLocation.NULL = EntityLocation.NULL
          · rw [if_pos hold]
            rw [if_pos hold] at hset
            omega
          · rw [if_neg hold]
            rw [if_neg hold] at hset
            omega
        · show 1 ≤ (if ch.map.getD (eInd e) EntityLocation.NULL = EntityLocation.NULL
              then ch.len + 1 else ch.len)
          split <;> omega
      · rw [em_update_ne _ _ _ _ hk] at hb
        exact hinv k b hb
  | none =>
      rw [hm] at hb
      by_cases hk : k = cInd e
      · subst hk
        rw [em_update_self] at hb
        cases hb
        have hrep16 : (EMBucket.new.map).length = 16 := by
          simp [EMBucket.new]
        have hrepNull : EMBucket.new.map.getD (eInd e) EntityLocation.NULL
            = EntityLocation.NULL := by
          have h16 : eInd e < (List.replicate 16 EntityLocation.NULL).length := by
            rw [List.length_replicate]
            exact eInd_lt e
          show (List.replicate 16 EntityLocation.NULL).getD (eInd e) EntityLocation.NULL = _
          rw [List.getD_eq_getElem _ _ h16]
          exact List.getElem_replicate _ _
        have hset := countNonNull_set EMBucket.new.map (eInd e)
          (by rw [hrep16]; exact eInd_lt e) loc
        rw [if_neg hl, if_pos hrepNull] at hset
        have hrep0 : countNonNull EMBucket.new.map = 0 := countNonNull_replicate 16
        refine ⟨by simpa using hrep16, ?_, ?_⟩
        · show (1 : Nat) = countNonNull (EMBucket.new.map.set (eInd e) loc)
          omega
        · show (1 : Nat) ≤ 1
          exact Nat.le_refl 1
      · rw [em_update_ne _ _ _ _ hk] at hb
        exact hinv k b hb

/-- Reduction of `EntityMap::remove` when the entity's bucket is present. -/
theorem em_remove_red (m : EntityMap) (e : Nat) (ch : EMBucket)
    (hm : m.chunks (cInd e) = some ch) :
    m.remove e =
      (if (if ch.map.getD (eInd e) EntityLocation.NULL ≠ EntityLocation.NULL
           then ch.len - 1 else ch.len) = 0
       then m.update (cInd e) none
       else m.update (cInd e)
         (some { map := ch.map.set (eInd e) EntityLocation.NULL,
                 len := if ch.map.getD (eInd e) EntityLocation.NULL ≠ EntityLocation.NULL
                        then ch.len - 1 else ch.len })) := by
  unfold EntityMap.remove
  rw [hm]

/-- The bucket invariant is preserved by a remove. -/
theorem emInv_remove (m : EntityMap) (e : Nat) (hinv : EMInv m) : EMInv (m.remove e) := by
  cases hm : m.chunks (cInd e) with
  | none =>
      have hrm : m.remove e = m := by
        unfold EntityMap.remove
        rw [hm]
      rw [hrm]
      exact hinv
  | some ch =>
      obtain ⟨hlen16, hcount, hpos⟩ := hinv (cInd e) ch hm
      rw [em_remove_red m e ch hm]
      by_cases hold : ch.map.getD (eInd e) EntityLocation.NULL = EntityLocation.NULL
      · have hinner : (if ch.map.getD (eInd e) EntityLocation.NULL ≠ EntityLocation.NULL
            then ch.len - 1 else ch.len) = ch.len := if_neg (fun hcon => hcon hold)
        rw [hinner, if_neg (by omega)]
        intro k b hb
        by_cases hk : k = cInd e
        · subst hk
          rw [em_update_self] at hb
          cases hb
          have hset := countNonNull_set ch.map (eInd e)
            (by rw [hlen16]; exact eInd_lt e) EntityLocation.NULL
          rw [if_pos rfl, if_pos hold] at hset
          refine ⟨by simpa using hlen16, ?_, ?_⟩
          · show ch.len = countNonNull (ch.map.set (eInd e) EntityLocation.NULL)
            omega
          · show 1 ≤ ch.len
            exact hpos
        · rw [em_update_ne _ _ _ _ hk] at hb
          exact hinv k b hb
      · have hinner : (if ch.map.getD (eInd e) EntityLocation.NULL ≠ EntityLocation.NULL
            then ch.len - 1 else ch.len) = ch.len - 1 := if_pos hold
        rw [hinner]
        by_cases hz : ch.len - 1 = 0
        · rw [if_pos hz]
          intro k b hb
          by_cases hk : k = cInd e
          · subst hk
            rw [em_update_self] at hb
            cases hb
          · rw [em_update_ne _ _ _ _ hk] at hb
            exact hinv k b hb
        · rw [if_neg hz]
          intro k b hb
          by_cases hk : k = cInd e
          · subst hk
            rw [em_update_self] at hb
            cases hb
            have hset := countNonNull_set ch.map (eInd e)
              (by rw [hlen16]; exact eInd_lt e) EntityLocation.NULL
            rw [if_pos rfl, if_neg hold] at hset
            refine ⟨by simpa using hlen16, ?_, ?_⟩
            · show ch.len - 1 = countNonNull (ch.map.set (eInd e) EntityLocation.NULL)
              omega
            · show 1 ≤ ch.len - 1
              omega
          · rw [em_update_ne _ _ _ _ hk] at hb
            exact hinv k b hb

/-- The bucket invariant holds in every reachable map state. -/
theorem emInv_reach {m : EntityMap} (hr : EMReach m) : EMInv m := by
  induction hr with
  | refl =>
      intro k b hb
      cases hb
  | step hr hs ih =>
      rename_i b c
      cases hs with
      | ins e loc hl => exact emInv_insert b e loc hl ih
      | rem e => exact emInv_remove b e ih

/-- Claim C10: bucket occupancy of the entity directory (entity.rs:111-179).  In
every map state reachable by inserts of non-NULL locations and removes, each
present bucket's counter equals its number of non-NULL slots and is at least
one; moreover a remove deallocates the target bucket exactly when the bucket
was present with a single non-NULL slot and the removed entity's slot was that
non-NULL one. -/
theorem claim10_bucket_occupancy (m : EntityMap) (hr : EMReach m) :
    (∀ k b, m.chunks k = some b → b.len = countNonNull b.map ∧ 1 ≤ b.len) ∧
    ∀ e, ((m.remove e).chunks (cInd e) = none ↔
        (m.chunks (cInd e) = none ∨
         ∃ b, m.chunks (cInd e) = some b ∧ countNonNull b.map = 1 ∧
           b.map.getD (eInd e) EntityLocation.NULL ≠ EntityLocation.NULL)) := by
  have hinv := emInv_reach hr
  refine ⟨fun k b hb => ⟨(hinv k b hb).2.1, (hinv k b hb).2.2⟩, ?_⟩
  intro e
  cases hm : m.chunks (cInd e) with
  | none =>
      have hrm : m.remove e = m := by
        unfold EntityMap.remove
        rw [hm]
      rw [hrm, hm]
      exact ⟨fun _ => Or.inl rfl, fun _ => rfl⟩
  | some ch =>
      obtain ⟨hlen16, hcount, hpos⟩ := hinv (cInd e) ch hm
      rw [em_remove_red m e ch hm]
      by_cases hold : ch.map.getD (eInd e) EntityLocation.NULL = EntityLocation.NULL
      · have hinner : (if ch.map.getD (eInd e) EntityLocation.NULL ≠ EntityLocation.NULL
            then ch.len - 1 else ch.len) = ch.len := if_neg (fun hcon => hcon hold)
        rw [hinner, if_neg (by omega), em_update_self]
        constructor
        · intro hcontr
          exact Option.noConfusion hcontr
        · intro hor
          rcases hor with hnone | ⟨b, hb, hcnt, hslot⟩
          · exact Option.noConfusion hnone
          · have hbc : ch = b := Option.some.inj hb
            subst hbc
            exact absurd hold hslot
      · have hinner : (if ch.map.getD (eInd e) EntityLocation.NULL ≠ EntityLocation.NULL
            then ch.len - 1 else ch.len) = ch.len - 1 := if_pos hold
        rw [hinner]
        by_cases hone : ch.len = 1
        · rw [if_pos (by omega), em_update_self]
          refine ⟨fun _ => Or.inr ⟨ch, by simp [hm], by omega, hold⟩, fun _ => rfl⟩
        · rw [if_neg (by omega), em_update_self]
          constructor
          · intro hcontr
            exact Option.noConfusion hcontr
          · intro hor
            rcases hor with hnone | ⟨b, hb, hcnt, hslot⟩
            · exact Option.noConfusion hnone
            · have hbc : ch = b := Option.some.inj hb
              subst hbc
              omega

/-- Witness for claim C10: the invariant and the deallocation characterization at the
concrete one-entry map reached by inserting entity 0 at location (0,0,0). -/
theorem claim10_witness :
    (∀ k b, (EntityMap.empty.insert 0 { archetype := 0, chunk := 0, index := 0 }).chunks k
        = some b → b.len = countNonNull b.map ∧ 1 ≤ b.len) ∧
    ∀ e, (((EntityMap.empty.insert 0 { archetype := 0, chunk := 0, index := 0 }).remove e).chunks
          (cInd e) = none ↔
        ((EntityMap.empty.insert 0 { archetype := 0, chunk := 0, index := 0 }).chunks
            (cInd e) = none ∨
         ∃ b, (EntityMap.empty.insert 0 { archetype := 0, chunk := 0, index := 0 }).chunks
              (cInd e) = some b ∧ countNonNull b.map = 1 ∧
           b.map.getD (eInd e) EntityLocation.NULL ≠ EntityLocation.NULL)) :=
  claim10_bucket_occupancy _
    (EMReach.step EMReach.refl
      (EMStep.ins EntityMap.empty 0 { archetype := 0, chunk := 0, index := 0 } (by decide)))

end Ezgame

